import Mathlib

/-!
# lab4.cc : two-cell 802.11b experiment, flow report and aggregate throughput

A shallow embedding of `main` of `src/lab4.cc`.  The simulator (ns-3) is an
external collaborator: what it hands back after `Simulator::Run` (the
flow-statistics map, the classifier and the two sink byte counters) is an
input of the model.  The arithmetic of the report is embedded operation by
operation: `uint64_t` products are taken modulo `2^64`, and `double` values
follow IEEE 754 binary64 with round-to-nearest, ties-to-even.
-/

namespace Lab4

/-! ## IEEE 754 binary64 values and arithmetic -/

/-- A C++ `double`: NaN, an infinity, negative zero, or a finite value given
by the rational it denotes (`fin 0` is positive zero). -/
inductive Double where
  | nan : Double
  | inf (neg : Bool) : Double
  | negZero : Double
  | fin (q : ℚ) : Double
  deriving DecidableEq

namespace Double

/-- Sign bit of the value (NaN is given sign `false`). -/
def sign : Double → Bool
  | nan => false
  | inf s => s
  | negZero => true
  | fin q => decide (q < 0)

/-- Zero with the given sign bit. -/
def zero (s : Bool) : Double := if s then negZero else fin 0

/-- Test for NaN. -/
def isNaN : Double → Bool
  | nan => true
  | _ => false

/-- Test for an infinity of either sign. -/
def isInf : Double → Bool
  | inf _ => true
  | _ => false

/-- Test for a zero of either sign. -/
def isZero : Double → Bool
  | negZero => true
  | fin q => decide (q = 0)
  | _ => false

/-- Round a non-negative rational to the nearest integer, ties to even. -/
def roundHalfEven (x : ℚ) : ℤ :=
  let f := ⌊x⌋
  let r := x - f
  if r < 1 / 2 then f
  else if 1 / 2 < r then f + 1
  else if f % 2 = 0 then f else f + 1

/-- Exponent of the binade of a positive rational, clamped at the smallest
normal exponent `-1022` (below it the subnormal spacing applies). -/
def binade (a : ℚ) : ℤ := max (Int.log 2 a) (-1022)

/-- Spacing of binary64 values (53-bit significand) in the binade of `a`. -/
def ulp (a : ℚ) : ℚ := (2 : ℚ) ^ (binade a - 52)

/-- Magnitude of the binary64 value nearest to the positive rational `a`,
before the overflow test. -/
def roundMag (a : ℚ) : ℚ := (roundHalfEven (a / ulp a) : ℚ) * ulp a

/-- Correct rounding of an exact non-zero result to binary64: round to
nearest, ties to even; magnitudes that round to `2^1024` or more overflow to
infinity, magnitudes that round to nothing underflow to a zero of the same
sign. -/
def round (q : ℚ) : Double :=
  if q = 0 then fin 0
  else
    let m := roundMag |q|
    if (2 : ℚ) ^ (1024 : ℕ) ≤ m then inf (decide (q < 0))
    else if m = 0 then zero (decide (q < 0))
    else fin (if q < 0 then -m else m)

/-- Conversion of an unsigned integer to `double`. -/
def ofNat (n : ℕ) : Double := round (n : ℚ)

/-- The unary operator `-` of `double`. -/
def neg : Double → Double
  | nan => nan
  | inf s => inf (!s)
  | negZero => fin 0
  | fin q => if q = 0 then negZero else fin (-q)

/-- The operator `+` of `double`. -/
def add : Double → Double → Double
  | nan, _ => nan
  | _, nan => nan
  | inf s, inf t => if s = t then inf s else nan
  | inf s, _ => inf s
  | _, inf t => inf t
  | negZero, negZero => negZero
  | negZero, fin q => round q
  | fin p, negZero => round p
  | fin p, fin q => round (p + q)

/-- The operator `-` of `double`. -/
def sub (x y : Double) : Double := add x (neg y)

/-- The operator `*` of `double`. -/
def mul (x y : Double) : Double :=
  match x, y with
  | nan, _ => nan
  | _, nan => nan
  | inf s, inf t => inf (xor s t)
  | inf s, y => if y.isZero then nan else inf (xor s y.sign)
  | x, inf t => if x.isZero then nan else inf (xor x.sign t)
  | negZero, y => zero (xor true y.sign)
  | x, negZero => zero (xor x.sign true)
  | fin p, fin q =>
    if p = 0 ∨ q = 0 then zero (xor (decide (p < 0)) (decide (q < 0)))
    else round (p * q)

/-- The operator `/` of `double`. -/
def div (x y : Double) : Double :=
  match x, y with
  | nan, _ => nan
  | _, nan => nan
  | inf _, inf _ => nan
  | inf s, y => inf (xor s y.sign)
  | x, inf t => zero (xor x.sign t)
  | negZero, negZero => nan
  | negZero, fin q => if q = 0 then nan else zero (xor true (decide (q < 0)))
  | fin p, negZero => if p = 0 then nan else inf (xor (decide (p < 0)) true)
  | fin p, fin q =>
    if q = 0 then (if p = 0 then nan else inf (decide (p < 0)))
    else if p = 0 then zero (decide (q < 0))
    else round (p / q)

/-- The operator `<=` of `double` (false whenever an operand is NaN; the two
zeros compare equal). -/
def le : Double → Double → Bool
  | nan, _ => false
  | _, nan => false
  | inf s, inf t => s || !t
  | inf s, _ => s
  | _, inf t => !t
  | negZero, negZero => true
  | negZero, fin q => decide (0 ≤ q)
  | fin p, negZero => decide (p ≤ 0)
  | fin p, fin q => decide (p ≤ q)

/-- The operator `<` of `double`. -/
def lt : Double → Double → Bool
  | nan, _ => false
  | _, nan => false
  | inf s, inf t => s && !t
  | inf s, _ => s
  | _, inf t => !t
  | negZero, negZero => false
  | negZero, fin q => decide (0 < q)
  | fin p, negZero => decide (p < 0)
  | fin p, fin q => decide (p < q)

/-- Shape of a value that is neither NaN, nor negative, nor negative zero. -/
def NonNeg (x : Double) : Prop := x = inf false ∨ ∃ q : ℚ, 0 ≤ q ∧ x = fin q

end Double

/-! ## Data handed back by the simulator -/

/-- The flow identifier `FlowId` (a `uint32_t`). -/
abbrev FlowId := ℕ

/-- An IPv4 address as its 32-bit value. -/
abbrev Ipv4Address := ℕ

/-- The record `Ipv4FlowClassifier::FiveTuple`. -/
structure FiveTuple where
  sourceAddress : Ipv4Address
  destinationAddress : Ipv4Address
  protocol : ℕ
  sourcePort : ℕ
  destinationPort : ℕ
  deriving DecidableEq

/-- The fields of `FlowMonitor::FlowStats` read by `main`.  The two time
stamps are held as the `double` that `GetSeconds ()` returns for them; the
byte counters are `uint64_t`, the packet counters `uint32_t`. -/
structure FlowStats where
  timeFirstTxPacket : Double
  timeLastRxPacket : Double
  txBytes : ℕ
  rxBytes : ℕ
  txPackets : ℕ
  rxPackets : ℕ
  deriving DecidableEq

/-- The container `std::map<FlowId, FlowMonitor::FlowStats>`: keys are unique
and iteration from `begin ()` to `end ()` visits them in ascending order. -/
structure FlowStatsMap where
  entries : List (FlowId × FlowStats)
  ascending : entries.Pairwise (fun a b => a.1 < b.1)

/-- What `main` reads back once `Simulator::Run` has returned. -/
structure SimResult where
  stats : FlowStatsMap
  classifier : FlowId → FiveTuple
  udpTotalRx : ℕ
  tcpTotalRx : ℕ

/-! ## Command line -/

/-- The options of `main` after `cmd.Parse`. -/
structure Config where
  dist : ℕ
  tries : ℕ
  enableRtsCts : Bool
  payloadSize : ℕ
  dataRate : String
  tcpVariant : String
  phyRate : String
  simulationTime : Double
  pcapTracing : Bool

/-- The initial values of the options (lines 64-72). -/
def defaultConfig : Config where
  dist := 50
  tries := 1
  enableRtsCts := false
  payloadSize := 1472
  dataRate := "2Mbps"
  tcpVariant := "TcpNewReno"
  phyRate := "DsssRate2Mbps"
  simulationTime := Double.fin 10
  pcapTracing := false

/-! ## Topology (lines 121-159) -/

/-- The ns-3 `Vector` of three `double` coordinates. -/
structure Vector where
  x : Double
  y : Double
  z : Double
  deriving DecidableEq

/-- Modelled from the spec: `ListPositionAllocator` of ns-3 is not part of the
sources; positions are handed out from the position list in order.  The
allocator is its list and the index of the next position. -/
structure ListPositionAllocator where
  positions : List Vector
  current : ℕ

/-- Modelled from the spec: `ListPositionAllocator::Add` appends a position
and rewinds to the front of the list. -/
def ListPositionAllocator.Add (a : ListPositionAllocator) (v : Vector) :
    ListPositionAllocator :=
  ⟨a.positions ++ [v], 0⟩

/-- Modelled from the spec: `ListPositionAllocator::GetNext` returns the
current position and advances, wrapping round at the end of the list. -/
def ListPositionAllocator.GetNext (a : ListPositionAllocator) :
    Vector × ListPositionAllocator :=
  (a.positions.getD a.current ⟨Double.fin 0, Double.fin 0, Double.fin 0⟩,
   ⟨a.positions, if a.current + 1 = a.positions.length then 0 else a.current + 1⟩)

/-- Modelled from the spec: `MobilityHelper::Install` on a node container
gives each node of the container, in container order, the next position of
the allocator.  The placements made so far are threaded through. -/
def mobilityInstall :
    ListPositionAllocator → List ℕ → List (ℕ × Vector) →
      ListPositionAllocator × List (ℕ × Vector)
  | a, [], placed => (a, placed)
  | a, n :: rest, placed =>
    mobilityInstall a.GetNext.2 rest (placed ++ [(n, a.GetNext.1)])

/-- The node identifiers made by `networkNodes.Create (4)`. -/
def networkNodes : List ℕ := [0, 1, 2, 3]

/-- The loop of lines 125-130: even indices go to `apNodes`, odd ones to
`stationNodes`.  The result is `(apNodes, stationNodes)`. -/
def splitNodes : List ℕ × List ℕ :=
  (List.range 4).foldl
    (fun c i =>
      if i % 2 = 0 then (c.1 ++ [networkNodes.getD i 0], c.2)
      else (c.1, c.2 ++ [networkNodes.getD i 0]))
    ([], [])

/-- The container `apNodes` after the loop of lines 125-130. -/
def apNodes : List ℕ := splitNodes.1

/-- The container `stationNodes` after the loop of lines 125-130. -/
def stationNodes : List ℕ := splitNodes.2

/-- The allocator filled by lines 149-153; `dist` is a `uint32_t` converted
to `double` before the addition. -/
def positionAlloc (dist : ℕ) : ListPositionAllocator :=
  (((((⟨[], 0⟩ : ListPositionAllocator).Add
      ⟨Double.fin 0, Double.fin 0, Double.fin 0⟩).Add
      ⟨Double.fin 10000, Double.fin 0, Double.fin 0⟩).Add
      ⟨Double.add (Double.fin 0) (Double.ofNat dist), Double.fin 0, Double.fin 0⟩).Add
      ⟨Double.add (Double.fin 10000) (Double.ofNat dist), Double.fin 0, Double.fin 0⟩)

/-- Lines 158-159: the mobility helper is installed on the stations first and
on the access points second.  The result lists each node with its position. -/
def placement (dist : ℕ) : List (ℕ × Vector) :=
  let s := mobilityInstall (positionAlloc dist) stationNodes []
  (mobilityInstall s.1 apNodes s.2).2

/-- Position given to a node, if it was placed. -/
def nodePosition (dist : ℕ) (node : ℕ) : Option Vector :=
  (placement dist).lookup node

/-! ## Flow report (lines 223-238) and aggregate averages (lines 240-241) -/

/-- One block of the per-flow report. -/
structure FlowReport where
  flowId : FlowId
  sourceAddress : Ipv4Address
  destinationAddress : Ipv4Address
  txPackets : ℕ
  txBytes : ℕ
  txOffered : Double
  rxPackets : ℕ
  rxBytes : ℕ
  throughput : Double
  deriving DecidableEq

/-- Line 229: `ftime`, the last-receive time minus the first-transmit time. -/
def ftime (s : FlowStats) : Double :=
  Double.sub s.timeLastRxPacket s.timeFirstTxPacket

/-- The expression `bytes * 8 / ftime / 1000000.0` of lines 233 and 236:
the product is a `uint64_t` product, then converted to `double`. -/
def rateMbps (bytes : ℕ) (t : Double) : Double :=
  Double.div (Double.div (Double.ofNat ((bytes * 8) % 2 ^ 64)) t) (Double.fin 1000000)

/-- The body of the `if` of lines 227-237 for one map entry. -/
def flowReport (classifier : FlowId → FiveTuple) (i : FlowId × FlowStats) : FlowReport where
  flowId := i.1
  sourceAddress := (classifier i.1).sourceAddress
  destinationAddress := (classifier i.1).destinationAddress
  txPackets := i.2.txPackets
  txBytes := i.2.txBytes
  txOffered := rateMbps i.2.txBytes (ftime i.2)
  rxPackets := i.2.rxPackets
  rxBytes := i.2.rxBytes
  throughput := rateMbps i.2.rxBytes (ftime i.2)

/-- The loop of lines 224-238 over the entries of the map, in iteration
order; the blocks written are collected in the order they are written. -/
def reportLoop (classifier : FlowId → FiveTuple) : List (FlowId × FlowStats) → List FlowReport
  | [] => []
  | i :: rest =>
    if i.1 ≥ 1 then flowReport classifier i :: reportLoop classifier rest
    else reportLoop classifier rest

/-- The expression `(sink->GetTotalRx () * 8) / (1e6 * simulationTime)` of
lines 240-241; `GetTotalRx` returns a `uint64_t`. -/
def averageThroughput (totalRx : ℕ) (simulationTime : Double) : Double :=
  Double.div (Double.ofNat ((totalRx * 8) % 2 ^ 64))
    (Double.mul (Double.fin 1000000) simulationTime)

/-- Everything `main` configures or prints that the claims speak of. -/
structure Output where
  ctsThr : ℕ
  apNodes : List ℕ
  stationNodes : List ℕ
  placement : List (ℕ × Vector)
  stopTime : Double
  flows : List FlowReport
  udpAverageThroughput : Double
  tcpAverageThroughput : Double

/-- The function `main`: configuration, then the report computed from what
the simulator hands back. -/
def main (cfg : Config) (sim : SimResult) : Output where
  ctsThr := if cfg.enableRtsCts then 10 else 2200
  apNodes := apNodes
  stationNodes := stationNodes
  placement := placement cfg.dist
  stopTime := Double.add cfg.simulationTime (Double.fin 1)
  flows := reportLoop sim.classifier sim.stats.entries
  udpAverageThroughput := averageThroughput sim.udpTotalRx cfg.simulationTime
  tcpAverageThroughput := averageThroughput sim.tcpTotalRx cfg.simulationTime

/-! ## The formulas of the specification -/

/-- The per-flow rate as the specification writes it, `bytes*8/duration/1e6`,
with the product taken in the integers. -/
def specRateMbps (bytes : ℕ) (duration : Double) : Double :=
  Double.div (Double.div (Double.ofNat (bytes * 8)) duration) (Double.fin 1000000)

/-- The aggregate average as the specification writes it,
`totalReceivedBytes*8/(1e6*T)`, with the product taken in the integers. -/
def specAverageThroughput (totalReceivedBytes : ℕ) (T : Double) : Double :=
  Double.div (Double.ofNat (totalReceivedBytes * 8)) (Double.mul (Double.fin 1000000) T)

/-! ## Sample runs -/

/-- A five-tuple of the UDP flow: station `10.0.0.3` to access point `10.0.0.1`, port 9. -/
def sampleTuple : FiveTuple := ⟨167772163, 167772161, 17, 49153, 9⟩

/-- Flow statistics of a flow that sent and received 1472 bytes within one second. -/
def steadyFlow : FlowStats := ⟨Double.fin 1, Double.fin 2, 1472, 1472, 1, 1⟩

/-- Flow statistics with `2^61` bytes sent and received within one second. -/
def wrappedFlow : FlowStats := ⟨Double.fin 1, Double.fin 2, 2 ^ 61, 2 ^ 61, 1, 1⟩

/-- Flow statistics with `2^61` bytes sent and one byte received within one second. -/
def lossyWrappedFlow : FlowStats := ⟨Double.fin 1, Double.fin 2, 2 ^ 61, 1, 1, 1⟩

/-- Flow statistics whose last-receive time equals the first-transmit time. -/
def instantFlow : FlowStats := ⟨Double.fin 1, Double.fin 1, 1472, 0, 1, 0⟩

/-- A statistics map holding the single flow `1`. -/
def singleFlow (s : FlowStats) : FlowStatsMap := ⟨[(1, s)], List.pairwise_singleton _ _⟩

/-- A run that hands back a single flow and the two sink totals. -/
def sampleRun (s : FlowStats) (udpTotalRx tcpTotalRx : ℕ) : SimResult :=
  ⟨singleFlow s, fun _ => sampleTuple, udpTotalRx, tcpTotalRx⟩

/-! # Properties -/

/-! ## Binary64 rounding and arithmetic -/

namespace Double

theorem roundHalfEven_intCast (n : ℤ) : roundHalfEven (n : ℚ) = n := by
  simp [roundHalfEven]

theorem floor_le_roundHalfEven (x : ℚ) : ⌊x⌋ ≤ roundHalfEven x := by
  unfold roundHalfEven
  simp only
  split_ifs <;> omega

theorem roundHalfEven_le_floor_succ (x : ℚ) : roundHalfEven x ≤ ⌊x⌋ + 1 := by
  unfold roundHalfEven
  simp only
  split_ifs <;> omega

theorem roundHalfEven_mono {x y : ℚ} (h : x ≤ y) : roundHalfEven x ≤ roundHalfEven y := by
  rcases (Int.floor_le_floor h).lt_or_eq with hlt | heq
  · calc roundHalfEven x ≤ ⌊x⌋ + 1 := roundHalfEven_le_floor_succ x
      _ ≤ ⌊y⌋ := hlt
      _ ≤ roundHalfEven y := floor_le_roundHalfEven y
  · unfold roundHalfEven
    simp only [heq]
    have hxy : x - (⌊y⌋ : ℚ) ≤ y - (⌊y⌋ : ℚ) := by linarith
    split_ifs <;> first | omega | (exfalso; linarith)

theorem roundHalfEven_nonneg {x : ℚ} (h : 0 ≤ x) : 0 ≤ roundHalfEven x := by
  have := roundHalfEven_mono h
  rwa [show ((0 : ℚ)) = ((0 : ℤ) : ℚ) by simp, roundHalfEven_intCast] at this

theorem ulp_pos (a : ℚ) : 0 < ulp a := zpow_pos (by norm_num) _

theorem roundMag_nonneg {a : ℚ} (ha : 0 ≤ a) : 0 ≤ roundMag a := by
  unfold roundMag
  have h1 : 0 ≤ a / ulp a := div_nonneg ha (ulp_pos a).le
  have h2 := roundHalfEven_nonneg h1
  have h3 : (0 : ℚ) ≤ (roundHalfEven (a / ulp a) : ℚ) := by exact_mod_cast h2
  exact mul_nonneg h3 (ulp_pos a).le

theorem lt_two_zpow_binade {a : ℚ} : a < (2 : ℚ) ^ (binade a + 1) := by
  have h1 : a < ((2 : ℕ) : ℚ) ^ (Int.log 2 a + 1) := Int.lt_zpow_succ_log_self (by norm_num) a
  have h2 : ((2 : ℕ) : ℚ) ^ (Int.log 2 a + 1) ≤ (2 : ℚ) ^ (binade a + 1) := by
    have : Int.log 2 a + 1 ≤ binade a + 1 := by unfold binade; omega
    simpa using zpow_le_zpow_right₀ (by norm_num : (1 : ℚ) ≤ 2) this
  exact lt_of_lt_of_le h1 h2

theorem two_zpow_binade_le {a : ℚ} (ha : 0 < a) (h : -1022 ≤ Int.log 2 a) :
    (2 : ℚ) ^ binade a ≤ a := by
  have hb : binade a = Int.log 2 a := by unfold binade; omega
  rw [hb]
  simpa using Int.zpow_log_le_self (b := 2) (by norm_num) ha

theorem binade_mono {a b : ℚ} (ha : 0 < a) (h : a ≤ b) : binade a ≤ binade b := by
  have := Int.log_mono_right (b := 2) ha h
  unfold binade
  omega

theorem two_zpow_split (e : ℤ) : (2 : ℚ) ^ (e + 1) = (2 : ℚ) ^ (53 : ℕ) * (2 : ℚ) ^ (e - 52) := by
  rw [← zpow_natCast, ← zpow_add₀ (by norm_num)]
  congr 1
  push_cast
  ring

theorem two_zpow_split_low (e : ℤ) : (2 : ℚ) ^ e = (2 : ℚ) ^ (52 : ℕ) * (2 : ℚ) ^ (e - 52) := by
  rw [← zpow_natCast, ← zpow_add₀ (by norm_num)]
  congr 1
  push_cast
  ring

/-- The rounded magnitude never leaves the binade upwards. -/
theorem roundMag_le {a : ℚ} : roundMag a ≤ (2 : ℚ) ^ (binade a + 1) := by
  unfold roundMag
  have hu := ulp_pos a
  have h1 : a / ulp a ≤ (((2 : ℤ) ^ (53 : ℕ) : ℤ) : ℚ) := by
    rw [div_le_iff₀ hu]
    have := (lt_two_zpow_binade (a := a)).le
    rw [two_zpow_split] at this
    unfold ulp
    push_cast
    exact this
  have h2 := roundHalfEven_mono h1
  rw [roundHalfEven_intCast] at h2
  have h3 : (roundHalfEven (a / ulp a) : ℚ) ≤ (2 : ℚ) ^ (53 : ℕ) := by exact_mod_cast h2
  rw [two_zpow_split]
  unfold ulp at hu ⊢
  exact mul_le_mul_of_nonneg_right h3 hu.le

/-- The rounded magnitude of a value in the normal range never leaves the binade downwards. -/
theorem le_roundMag {a : ℚ} (ha : 0 < a) (h : -1022 ≤ Int.log 2 a) :
    (2 : ℚ) ^ binade a ≤ roundMag a := by
  unfold roundMag
  have hu := ulp_pos a
  have h1 : (((2 : ℤ) ^ (52 : ℕ) : ℤ) : ℚ) ≤ a / ulp a := by
    rw [le_div_iff₀ hu]
    have := two_zpow_binade_le ha h
    rw [two_zpow_split_low] at this
    unfold ulp
    push_cast
    exact this
  have h2 := roundHalfEven_mono h1
  rw [roundHalfEven_intCast] at h2
  have h3 : (2 : ℚ) ^ (52 : ℕ) ≤ (roundHalfEven (a / ulp a) : ℚ) := by exact_mod_cast h2
  rw [two_zpow_split_low]
  unfold ulp at hu ⊢
  exact mul_le_mul_of_nonneg_right h3 hu.le

/-- Rounding of magnitudes is monotone. -/
theorem roundMag_mono {a b : ℚ} (ha : 0 < a) (h : a ≤ b) : roundMag a ≤ roundMag b := by
  have hb : 0 < b := lt_of_lt_of_le ha h
  rcases (binade_mono ha h).lt_or_eq with hlt | heq
  · have hlog : -1022 ≤ Int.log 2 b := by
      unfold binade at hlt
      omega
    calc roundMag a ≤ (2 : ℚ) ^ (binade a + 1) := roundMag_le
      _ ≤ (2 : ℚ) ^ binade b := zpow_le_zpow_right₀ (by norm_num) (by omega)
      _ ≤ roundMag b := le_roundMag hb hlog
  · unfold roundMag ulp
    rw [heq]
    have hu : (0 : ℚ) < (2 : ℚ) ^ (binade b - 52) := zpow_pos (by norm_num) _
    have h1 : a / (2 : ℚ) ^ (binade b - 52) ≤ b / (2 : ℚ) ^ (binade b - 52) :=
      div_le_div_of_nonneg_right h hu.le
    have h2 := roundHalfEven_mono h1
    have h3 : (roundHalfEven (a / (2 : ℚ) ^ (binade b - 52)) : ℚ)
        ≤ (roundHalfEven (b / (2 : ℚ) ^ (binade b - 52)) : ℚ) := by exact_mod_cast h2
    exact mul_le_mul_of_nonneg_right h3 hu.le

/-- Rounding is exact on the integers below `2^53`. -/
theorem roundMag_natCast {n : ℕ} (h0 : 0 < n) (h : n < 2 ^ 53) : roundMag (n : ℚ) = n := by
  have hlog : Int.log 2 (n : ℚ) = (Nat.log 2 n : ℤ) := Int.log_natCast 2 n
  have hL : Nat.log 2 n < 53 := Nat.log_lt_of_lt_pow (by omega) h
  have hb : binade (n : ℚ) = (Nat.log 2 n : ℤ) := by
    unfold binade
    rw [hlog]
    omega
  unfold roundMag ulp
  rw [hb]
  have he : ((Nat.log 2 n : ℤ) - 52) = -((52 - Nat.log 2 n : ℕ) : ℤ) := by omega
  rw [he, zpow_neg, zpow_natCast, div_inv_eq_mul]
  have hc : (n : ℚ) * 2 ^ (52 - Nat.log 2 n) = (((n * 2 ^ (52 - Nat.log 2 n) : ℕ) : ℤ) : ℚ) := by
    push_cast
    ring
  rw [hc, roundHalfEven_intCast]
  push_cast
  have hp : (2 : ℚ) ^ (52 - Nat.log 2 n) ≠ 0 := pow_ne_zero _ (by norm_num)
  field_simp

theorem round_natCast {n : ℕ} (h : n < 2 ^ 53) : round (n : ℚ) = fin n := by
  rcases Nat.eq_zero_or_pos n with h0 | h0
  · subst h0
    simp [round]
  · have hq : (0 : ℚ) < n := by exact_mod_cast h0
    have hm : roundMag |(n : ℚ)| = n := by rw [abs_of_pos hq]; exact roundMag_natCast h0 h
    have hbig : ¬ ((2 : ℚ) ^ (1024 : ℕ) ≤ (n : ℚ)) := by
      have h1 : (n : ℚ) < (2 : ℚ) ^ (53 : ℕ) := by exact_mod_cast h
      have h2 : (2 : ℚ) ^ (53 : ℕ) ≤ (2 : ℚ) ^ (1024 : ℕ) :=
        pow_le_pow_right₀ (by norm_num) (by norm_num)
      linarith
    unfold round
    simp only [hm]
    rw [if_neg hq.ne', if_neg hbig, if_neg hq.ne', if_neg (not_lt.mpr hq.le)]

theorem ofNat_eq_fin {n : ℕ} (h : n < 2 ^ 53) : ofNat n = fin n := round_natCast h

theorem round_of_pos {a : ℚ} (ha : 0 < a) :
    round a = if (2 : ℚ) ^ (1024 : ℕ) ≤ roundMag a then inf false
      else if roundMag a = 0 then fin 0 else fin (roundMag a) := by
  unfold round
  simp [ha.ne', abs_of_pos ha, not_lt.mpr ha.le, zero]

theorem nonNeg_round {a : ℚ} (ha : 0 ≤ a) : NonNeg (round a) := by
  rcases ha.eq_or_lt with h0 | hpos
  · subst h0
    exact Or.inr ⟨0, le_refl _, by simp [round]⟩
  · rw [round_of_pos hpos]
    split_ifs with h1 h2
    · exact Or.inl rfl
    · exact Or.inr ⟨0, le_refl _, rfl⟩
    · exact Or.inr ⟨_, roundMag_nonneg hpos.le, rfl⟩

theorem fin_zero_le_of_nonNeg {x : Double} (h : NonNeg x) : le (fin 0) x = true := by
  rcases h with h | ⟨q, hq, h⟩
  · subst h
    simp [le]
  · subst h
    simp [le, hq]

theorem le_inf_of_nonNeg {x : Double} (h : NonNeg x) : le x (inf false) = true := by
  rcases h with h | ⟨q, _, h⟩ <;> subst h <;> simp [le]

/-- Rounding to binary64 is monotone on the non-negative rationals. -/
theorem round_le_round {a b : ℚ} (ha : 0 ≤ a) (h : a ≤ b) : le (round a) (round b) = true := by
  rcases ha.eq_or_lt with h0 | hpos
  · subst h0
    have : round (0 : ℚ) = fin 0 := by simp [round]
    rw [this]
    exact fin_zero_le_of_nonNeg (nonNeg_round h)
  · have hb : 0 < b := lt_of_lt_of_le hpos h
    have hm := roundMag_mono hpos h
    have hna := roundMag_nonneg hpos.le
    have hnb := roundMag_nonneg hb.le
    rw [round_of_pos hpos, round_of_pos hb]
    split_ifs <;> simp [le] <;> linarith

theorem roundHalfEven_eq_of_near {x : ℚ} {k : ℤ} (h : |x - k| < 1 / 2) : roundHalfEven x = k := by
  rw [abs_lt] at h
  obtain ⟨h1, h2⟩ := h
  rcases le_or_lt (k : ℚ) x with hk | hk
  · have hf : ⌊x⌋ = k := by
      rw [Int.floor_eq_iff]
      constructor <;> linarith
    unfold roundHalfEven
    simp only [hf]
    rw [if_pos (by linarith)]
  · have hf : ⌊x⌋ = k - 1 := by
      rw [Int.floor_eq_iff]
      push_cast
      constructor <;> linarith
    unfold roundHalfEven
    simp only [hf]
    push_cast
    rw [if_neg (by linarith), if_pos (by linarith)]
    omega

theorem binade_eq_of {a : ℚ} {e : ℤ} (he : -1022 ≤ e) (h1 : (2 : ℚ) ^ e ≤ a)
    (h2 : a < (2 : ℚ) ^ (e + 1)) : binade a = e := by
  have ha : 0 < a := lt_of_lt_of_le (zpow_pos (by norm_num) _) h1
  have hle : e ≤ Int.log 2 a := (Int.zpow_le_iff_le_log (b := 2) (by norm_num) ha).mp (by simpa using h1)
  have hlt : Int.log 2 a < e + 1 := (Int.lt_zpow_iff_log_lt (b := 2) (by norm_num) ha).mp (by simpa using h2)
  unfold binade
  omega

/-- Evaluation of `round` at a positive value of the normal range: `e` is the
binade and `k` the integer nearest to the scaled value. -/
theorem round_eq_fin_of {a : ℚ} (e k : ℤ) (he : -1022 ≤ e) (h1 : (2 : ℚ) ^ e ≤ a)
    (h2 : a < (2 : ℚ) ^ (e + 1)) (hk : |a / (2 : ℚ) ^ (e - 52) - k| < 1 / 2)
    (hk0 : 0 < k) (hlt : (k : ℚ) * (2 : ℚ) ^ (e - 52) < (2 : ℚ) ^ (1024 : ℕ)) :
    round a = fin ((k : ℚ) * (2 : ℚ) ^ (e - 52)) := by
  have ha : 0 < a := lt_of_lt_of_le (zpow_pos (by norm_num) _) h1
  have hm : roundMag a = (k : ℚ) * (2 : ℚ) ^ (e - 52) := by
    unfold roundMag ulp
    rw [binade_eq_of he h1 h2, roundHalfEven_eq_of_near hk]
  have hpos : 0 < (k : ℚ) * (2 : ℚ) ^ (e - 52) :=
    mul_pos (by exact_mod_cast hk0) (zpow_pos (by norm_num) _)
  rw [round_of_pos ha, hm, if_neg (not_le.mpr hlt), if_neg hpos.ne']

theorem div_fin_fin {p q : ℚ} (hp : 0 ≤ p) (hq : 0 < q) : div (fin p) (fin q) = round (p / q) := by
  rcases hp.eq_or_lt with h0 | hpos
  · subst h0
    simp [div, hq.ne', round, zero, not_lt.mpr hq.le]
  · simp [div, hq.ne', hpos.ne']

theorem div_inf_fin {q : ℚ} (hq : 0 < q) : div (inf false) (fin q) = inf false := by
  simp [div, sign, not_lt.mpr hq.le]

theorem div_fin_inf {p : ℚ} (hp : 0 ≤ p) : div (fin p) (inf false) = fin 0 := by
  simp [div, sign, zero, not_lt.mpr hp]

theorem nonNeg_div_fin {x : Double} (hx : NonNeg x) {q : ℚ} (hq : 0 < q) :
    NonNeg (div x (fin q)) := by
  rcases hx with h | ⟨p, hp, h⟩
  · subst h
    rw [div_inf_fin hq]
    exact Or.inl rfl
  · subst h
    rw [div_fin_fin hp hq]
    exact nonNeg_round (div_nonneg hp hq.le)

/-- Division by a positive finite value is monotone on non-negative values. -/
theorem div_fin_le_div_fin {x y : Double} (hx : NonNeg x) (hy : NonNeg y)
    (h : le x y = true) {q : ℚ} (hq : 0 < q) : le (div x (fin q)) (div y (fin q)) = true := by
  rcases hy with hy | ⟨b, hb, hy⟩
  · subst hy
    rw [div_inf_fin hq]
    exact le_inf_of_nonNeg (nonNeg_div_fin hx hq)
  · subst hy
    rcases hx with hx | ⟨a, ha, hx⟩
    · subst hx
      simp [le] at h
    · subst hx
      have hab : a ≤ b := by simpa [le] using h
      rw [div_fin_fin ha hq, div_fin_fin hb hq]
      exact round_le_round (div_nonneg ha hq.le) (div_le_div_of_nonneg_right hab hq.le)

/-- Conversion of a 64-bit unsigned integer gives a finite non-negative value. -/
theorem ofNat_finite {n : ℕ} (h : n < 2 ^ 64) : ∃ q : ℚ, 0 ≤ q ∧ ofNat n = fin q := by
  rcases Nat.eq_zero_or_pos n with h0 | h0
  · subst h0
    exact ⟨0, le_refl _, by simp [ofNat, round]⟩
  · have hq : (0 : ℚ) < n := by exact_mod_cast h0
    have hlog : Int.log 2 (n : ℚ) = (Nat.log 2 n : ℤ) := Int.log_natCast 2 n
    have hL : Nat.log 2 n < 64 := Nat.log_lt_of_lt_pow (by omega) h
    have hb : binade (n : ℚ) + 1 ≤ 64 := by
      unfold binade
      rw [hlog]
      omega
    have hm : roundMag (n : ℚ) < (2 : ℚ) ^ (1024 : ℕ) := by
      calc roundMag (n : ℚ) ≤ (2 : ℚ) ^ (binade (n : ℚ) + 1) := roundMag_le
        _ ≤ (2 : ℚ) ^ (64 : ℤ) := zpow_le_zpow_right₀ (by norm_num) hb
        _ < (2 : ℚ) ^ (1024 : ℕ) := by norm_num
    unfold ofNat
    rw [round_of_pos hq, if_neg (not_le.mpr hm)]
    split_ifs
    · exact ⟨0, le_refl _, rfl⟩
    · exact ⟨_, roundMag_nonneg hq.le, rfl⟩

theorem ofNat_le_ofNat {m n : ℕ} (h : m ≤ n) : le (ofNat m) (ofNat n) = true :=
  round_le_round (by positivity) (by exact_mod_cast h)

theorem round_two_pow_64 : round ((2 : ℚ) ^ (64 : ℕ)) = fin ((2 : ℚ) ^ (64 : ℕ)) := by
  have h := round_eq_fin_of (a := (2 : ℚ) ^ (64 : ℕ)) 64 (2 ^ 52) (by norm_num) (by norm_num)
    (by norm_num) (by norm_num) (by norm_num) (by norm_num)
  rw [h]
  norm_num

theorem round_spec_rate :
    round ((2 : ℚ) ^ (64 : ℕ) / 1000000) = fin (4722366482869645 / 256) := by
  have h := round_eq_fin_of (a := (2 : ℚ) ^ (64 : ℕ) / 1000000) 44 4722366482869645
    (by norm_num) (by norm_num) (by norm_num) (by norm_num [abs_lt]) (by norm_num) (by norm_num)
  rw [h]
  norm_num

theorem round_spec_average :
    round ((2 : ℚ) ^ (64 : ℕ) / 10000000) = fin (944473296573929 / 512) := by
  have h := round_eq_fin_of (a := (2 : ℚ) ^ (64 : ℕ) / 10000000) 40 7555786372591432
    (by norm_num) (by norm_num) (by norm_num) (by norm_num [abs_lt]) (by norm_num) (by norm_num)
  rw [h]
  norm_num

theorem round_eight_millionths :
    round ((8 : ℚ) / 1000000) = fin (4722366482869645 / 590295810358705651712) := by
  have h := round_eq_fin_of (a := (8 : ℚ) / 1000000) (-17) 4722366482869645
    (by norm_num) (by norm_num) (by norm_num) (by norm_num [abs_lt]) (by norm_num) (by norm_num)
  rw [h]
  norm_num

theorem ofNat_zero : ofNat 0 = fin 0 := by simp [ofNat, round]

theorem ofNat_two_pow_64 : ofNat (2 ^ 64) = fin ((2 : ℚ) ^ (64 : ℕ)) := by
  unfold ofNat
  push_cast
  exact round_two_pow_64

theorem ofNat_pos_finite {n : ℕ} (h0 : 0 < n) (h : n < 2 ^ 64) :
    ∃ q : ℚ, 0 < q ∧ ofNat n = fin q := by
  have hq : (0 : ℚ) < n := by exact_mod_cast h0
  have hlog : Int.log 2 (n : ℚ) = (Nat.log 2 n : ℤ) := Int.log_natCast 2 n
  have hL : Nat.log 2 n < 64 := Nat.log_lt_of_lt_pow (by omega) h
  have hb : binade (n : ℚ) + 1 ≤ 64 := by
    unfold binade
    rw [hlog]
    omega
  have hm : roundMag (n : ℚ) < (2 : ℚ) ^ (1024 : ℕ) := by
    calc roundMag (n : ℚ) ≤ (2 : ℚ) ^ (binade (n : ℚ) + 1) := roundMag_le
      _ ≤ (2 : ℚ) ^ (64 : ℤ) := zpow_le_zpow_right₀ (by norm_num) hb
      _ < (2 : ℚ) ^ (1024 : ℕ) := by norm_num
  have hpos : 0 < roundMag (n : ℚ) :=
    lt_of_lt_of_le (zpow_pos (by norm_num) _) (le_roundMag hq (by rw [hlog]; omega))
  unfold ofNat
  rw [round_of_pos hq, if_neg (not_le.mpr hm), if_neg hpos.ne']
  exact ⟨_, hpos, rfl⟩

theorem eq_zero_of_isZero {t : Double} (ht : isZero t = true) : t = fin 0 ∨ t = negZero := by
  cases t with
  | nan => simp [isZero] at ht
  | inf s => simp [isZero] at ht
  | negZero => exact Or.inr rfl
  | fin q =>
    left
    simp only [isZero, decide_eq_true_eq] at ht
    rw [ht]

theorem div_pos_zero {q : ℚ} (hq : 0 < q) {t : Double} (ht : isZero t = true) :
    div (fin q) t = inf (sign t) := by
  rcases eq_zero_of_isZero ht with h | h <;> subst h <;>
    simp [div, sign, hq.ne', not_lt.mpr hq.le]

theorem div_zero_zero {t : Double} (ht : isZero t = true) : div (fin 0) t = nan := by
  rcases eq_zero_of_isZero ht with h | h <;> subst h <;> simp [div]

theorem mul_million_zero {t : Double} (ht : isZero t = true) : mul (fin 1000000) t = t := by
  rcases eq_zero_of_isZero ht with h | h <;> subst h <;> simp [mul, sign, zero]

theorem div_inf_million (s : Bool) : div (inf s) (fin 1000000) = inf s := by
  have h : ¬ ((1000000 : ℚ) < 0) := by norm_num
  simp [div, sign, h]

theorem div_nan_left (y : Double) : div nan y = nan := by
  cases y <;> rfl

/-- A 64-bit unsigned integer divided by a zero: NaN for `0`, an infinity otherwise. -/
theorem div_ofNat_zero {n : ℕ} (h : n < 2 ^ 64) {t : Double} (ht : isZero t = true) :
    div (ofNat n) t = if n = 0 then nan else inf (sign t) := by
  rcases Nat.eq_zero_or_pos n with h0 | h0
  · subst h0
    rw [ofNat_zero, div_zero_zero ht, if_pos rfl]
  · obtain ⟨q, hq, hn⟩ := ofNat_pos_finite h0 h
    rw [hn, div_pos_zero hq ht, if_neg (by omega)]

theorem div_zero_fin {q : ℚ} (hq : 0 < q) : div (fin 0) (fin q) = fin 0 := by
  rw [div_fin_fin (le_refl _) hq]
  simp [round]

theorem mul_million_ten : mul (fin 1000000) (fin 10) = fin 10000000 := by
  have h := round_natCast (n := 10000000) (by norm_num)
  have e : ((10000000 : ℕ) : ℚ) = 10000000 := Nat.cast_ofNat
  rw [e] at h
  have hp : ¬ ((1000000 : ℚ) = 0 ∨ (10 : ℚ) = 0) := by norm_num
  have hm : (1000000 : ℚ) * 10 = 10000000 := by norm_num
  simp only [mul]
  rw [if_neg hp, hm]
  exact h

theorem sub_two_one : sub (fin 2) (fin 1) = fin 1 := by
  have h := round_natCast (n := 1) (by norm_num)
  simp only [sub, neg, add]
  norm_num
  exact_mod_cast h

theorem sub_one_one : sub (fin 1) (fin 1) = fin 0 := by
  simp only [sub, neg, add]
  norm_num [round]

theorem pos_cases {t : Double} (ht : lt (fin 0) t = true) :
    t = inf false ∨ ∃ q : ℚ, 0 < q ∧ t = fin q := by
  cases t with
  | nan => simp [lt] at ht
  | inf s =>
    left
    simpa [lt] using ht
  | negZero => simp [lt] at ht
  | fin q =>
    right
    exact ⟨q, by simpa [lt] using ht, rfl⟩

end Double

open Double

/-! ## Topology -/

theorem placement_eq (dist : ℕ) :
    placement dist =
      [(1, ⟨fin 0, fin 0, fin 0⟩), (3, ⟨fin 10000, fin 0, fin 0⟩),
       (0, ⟨Double.add (fin 0) (Double.ofNat dist), fin 0, fin 0⟩),
       (2, ⟨Double.add (fin 10000) (Double.ofNat dist), fin 0, fin 0⟩)] := by
  rfl

theorem add_zero_ofNat {d : ℕ} (h : d < 2 ^ 32) : Double.add (fin 0) (Double.ofNat d) = fin d := by
  rw [ofNat_eq_fin (by omega)]
  simp only [Double.add, zero_add]
  exact round_natCast (by omega)

theorem add_tenThousand_ofNat {d : ℕ} (h : d < 2 ^ 32) :
    Double.add (fin 10000) (Double.ofNat d) = fin (10000 + d) := by
  rw [ofNat_eq_fin (by omega)]
  simp only [Double.add]
  have := round_natCast (n := 10000 + d) (by omega)
  push_cast at this
  exact this

theorem placement_eq_fin {dist : ℕ} (h : dist < 2 ^ 32) :
    placement dist =
      [(1, ⟨fin 0, fin 0, fin 0⟩), (3, ⟨fin 10000, fin 0, fin 0⟩),
       (0, ⟨fin dist, fin 0, fin 0⟩), (2, ⟨fin (10000 + dist), fin 0, fin 0⟩)] := by
  rw [placement_eq, add_zero_ofNat h, add_tenThousand_ofNat h]

/-! ## Flow report -/

theorem reportLoop_flowIds (cls : FlowId → FiveTuple) (l : List (FlowId × FlowStats)) :
    (reportLoop cls l).map FlowReport.flowId = (l.map Prod.fst).filter (fun k => decide (1 ≤ k)) := by
  induction l with
  | nil => rfl
  | cons i rest ih =>
    by_cases h : i.1 ≥ 1
    · simp [reportLoop, h, ih, flowReport]
    · simp [reportLoop, h, ih]

theorem keys_pairwise (m : FlowStatsMap) : (m.entries.map Prod.fst).Pairwise (· < ·) := by
  rw [List.pairwise_map]
  exact m.ascending

/-! ## Rates -/

theorem rateMbps_zero_duration (bytes : ℕ) {t : Double} (ht : Double.isZero t = true) :
    rateMbps bytes t = if (bytes * 8) % 2 ^ 64 = 0 then nan else inf (Double.sign t) := by
  unfold rateMbps
  rw [div_ofNat_zero (Nat.mod_lt _ (by norm_num)) ht]
  split_ifs
  · exact div_nan_left _
  · exact div_inf_million _

theorem averageThroughput_zero_time (totalRx : ℕ) {T : Double} (hT : Double.isZero T = true) :
    averageThroughput totalRx T =
      if (totalRx * 8) % 2 ^ 64 = 0 then nan else inf (Double.sign T) := by
  unfold averageThroughput
  rw [mul_million_zero hT, div_ofNat_zero (Nat.mod_lt _ (by norm_num)) hT]

theorem mem_reportLoop (cls : FlowId → FiveTuple) {l : List (FlowId × FlowStats)}
    {i : FlowId × FlowStats} (hi : i ∈ l) (h1 : i.1 ≥ 1) : flowReport cls i ∈ reportLoop cls l := by
  induction l with
  | nil => simp at hi
  | cons j rest ih =>
    rcases List.mem_cons.mp hi with h | h
    · subst h
      simp [reportLoop, h1]
    · by_cases hj : j.1 ≥ 1
      · simp only [reportLoop, hj, if_true]
        exact List.mem_cons_of_mem _ (ih h)
      · simp only [reportLoop, hj, if_false]
        exact ih h

/-- Below the wrap the code computes the rate of the specification. -/
theorem rateMbps_eq_spec_of_lt {bytes : ℕ} (h : bytes < 2 ^ 61) (t : Double) :
    rateMbps bytes t = specRateMbps bytes t := by
  unfold rateMbps specRateMbps
  rw [Nat.mod_eq_of_lt (by omega)]

/-- Below the wrap the code computes the average of the specification. -/
theorem averageThroughput_eq_spec_of_lt {totalRx : ℕ} (h : totalRx < 2 ^ 61) (T : Double) :
    averageThroughput totalRx T = specAverageThroughput totalRx T := by
  unfold averageThroughput specAverageThroughput
  rw [Nat.mod_eq_of_lt (by omega)]

/-- Below the wrap the rate is monotone in the byte count, for a positive duration. -/
theorem rateMbps_mono_of_lt {rx tx : ℕ} (h : rx ≤ tx) (htx : tx < 2 ^ 61) {t : Double}
    (ht : Double.lt (fin 0) t = true) : Double.le (rateMbps rx t) (rateMbps tx t) = true := by
  unfold rateMbps
  rw [Nat.mod_eq_of_lt (by omega : rx * 8 < 2 ^ 64), Nat.mod_eq_of_lt (by omega : tx * 8 < 2 ^ 64)]
  have hle : Double.le (Double.ofNat (rx * 8)) (Double.ofNat (tx * 8)) = true :=
    ofNat_le_ofNat (by omega)
  obtain ⟨a, ha, hra⟩ := ofNat_finite (by omega : rx * 8 < 2 ^ 64)
  obtain ⟨b, hb, hrb⟩ := ofNat_finite (by omega : tx * 8 < 2 ^ 64)
  have hm : (0 : ℚ) < 1000000 := by norm_num
  rcases pos_cases ht with h0 | ⟨q, hq, h0⟩
  · subst h0
    rw [hra, hrb, div_fin_inf ha, div_fin_inf hb, div_zero_fin hm]
    simp [Double.le]
  · subst h0
    have n1 : NonNeg (Double.ofNat (rx * 8)) := Or.inr ⟨a, ha, hra⟩
    have n2 : NonNeg (Double.ofNat (tx * 8)) := Or.inr ⟨b, hb, hrb⟩
    exact div_fin_le_div_fin (nonNeg_div_fin n1 hq) (nonNeg_div_fin n2 hq)
      (div_fin_le_div_fin n1 n2 hle hq) hm

theorem rateMbps_wrap : rateMbps (2 ^ 61) (fin 1) = fin 0 := by
  unfold rateMbps
  rw [show (2 ^ 61 * 8) % 2 ^ 64 = 0 by norm_num, ofNat_zero, div_zero_fin (by norm_num),
    div_zero_fin (by norm_num)]

theorem specRateMbps_wrap : specRateMbps (2 ^ 61) (fin 1) = fin (4722366482869645 / 256) := by
  unfold specRateMbps
  rw [show 2 ^ 61 * 8 = 2 ^ 64 by norm_num, ofNat_two_pow_64,
    div_fin_fin (by norm_num) (by norm_num), div_one, round_two_pow_64,
    div_fin_fin (by norm_num) (by norm_num)]
  exact round_spec_rate

theorem rateMbps_one :
    rateMbps 1 (fin 1) = fin (4722366482869645 / 590295810358705651712) := by
  unfold rateMbps
  rw [show (1 * 8) % 2 ^ 64 = 8 by norm_num, ofNat_eq_fin (by norm_num),
    div_fin_fin (by norm_num) (by norm_num), div_one]
  have h := round_natCast (n := 8) (by norm_num)
  rw [h, div_fin_fin (by norm_num) (by norm_num)]
  exact_mod_cast round_eight_millionths

/-! ## Aggregate averages (C1, C6) -/

/-- C1, amended: for sink totals under `2^61` bytes the two averages of
`main` are `totalReceivedBytes*8/(1e6*T)` with `T` the configured
`simulationTime`, whatever the flow-statistics map and the classifier hold. -/
theorem average_throughput_below_wrap (cfg : Config) (sim : SimResult)
    (hu : sim.udpTotalRx < 2 ^ 61) (ht : sim.tcpTotalRx < 2 ^ 61) :
    (main cfg sim).udpAverageThroughput
      = specAverageThroughput sim.udpTotalRx cfg.simulationTime ∧
    (main cfg sim).tcpAverageThroughput
      = specAverageThroughput sim.tcpTotalRx cfg.simulationTime ∧
    ∀ (stats : FlowStatsMap) (classifier : FlowId → FiveTuple),
      (main cfg ⟨stats, classifier, sim.udpTotalRx, sim.tcpTotalRx⟩).udpAverageThroughput
        = (main cfg sim).udpAverageThroughput ∧
      (main cfg ⟨stats, classifier, sim.udpTotalRx, sim.tcpTotalRx⟩).tcpAverageThroughput
        = (main cfg sim).tcpAverageThroughput :=
  ⟨averageThroughput_eq_spec_of_lt hu _, averageThroughput_eq_spec_of_lt ht _,
    fun _ _ => ⟨rfl, rfl⟩⟩

/-- C1, witness of the amended statement: the default options and sink
totals of 1472 and 0 bytes. -/
theorem average_throughput_below_wrap_witness :
    (sampleRun steadyFlow 1472 0).udpTotalRx < 2 ^ 61 ∧
    (sampleRun steadyFlow 1472 0).tcpTotalRx < 2 ^ 61 ∧
    ((main defaultConfig (sampleRun steadyFlow 1472 0)).udpAverageThroughput
      = specAverageThroughput 1472 (fin 10) ∧
    (main defaultConfig (sampleRun steadyFlow 1472 0)).tcpAverageThroughput
      = specAverageThroughput 0 (fin 10) ∧
    ∀ (stats : FlowStatsMap) (classifier : FlowId → FiveTuple),
      (main defaultConfig ⟨stats, classifier, 1472, 0⟩).udpAverageThroughput
        = (main defaultConfig (sampleRun steadyFlow 1472 0)).udpAverageThroughput ∧
      (main defaultConfig ⟨stats, classifier, 1472, 0⟩).tcpAverageThroughput
        = (main defaultConfig (sampleRun steadyFlow 1472 0)).tcpAverageThroughput) :=
  have hu : (sampleRun steadyFlow 1472 0).udpTotalRx < 2 ^ 61 := by
    show 1472 < 2 ^ 61
    norm_num
  have ht : (sampleRun steadyFlow 1472 0).tcpTotalRx < 2 ^ 61 := by
    show 0 < 2 ^ 61
    norm_num
  ⟨hu, ht, average_throughput_below_wrap defaultConfig (sampleRun steadyFlow 1472 0) hu ht⟩

/-- C1, counterexample to the claim for every counter value: with the default
options and a UDP sink
total of `2^61` bytes the `uint64_t` product `GetTotalRx () * 8` wraps to `0`,
so `main` reports an average of `0`, while `totalReceivedBytes*8/(1e6*T)` is
`2^64/10^7` rounded, about `1.8e12`. -/
theorem average_throughput_wraps :
    (main defaultConfig (sampleRun steadyFlow (2 ^ 61) 0)).udpAverageThroughput = fin 0 ∧
    specAverageThroughput (2 ^ 61) defaultConfig.simulationTime
      = fin (944473296573929 / 512) ∧
    (main defaultConfig (sampleRun steadyFlow (2 ^ 61) 0)).udpAverageThroughput
      ≠ specAverageThroughput (2 ^ 61) defaultConfig.simulationTime := by
  have h1 : (main defaultConfig (sampleRun steadyFlow (2 ^ 61) 0)).udpAverageThroughput
      = fin 0 := by
    show averageThroughput (2 ^ 61) (fin 10) = fin 0
    unfold averageThroughput
    rw [show (2 ^ 61 * 8) % 2 ^ 64 = 0 by norm_num, ofNat_zero, mul_million_ten]
    exact div_zero_fin (by norm_num)
  have h2 : specAverageThroughput (2 ^ 61) defaultConfig.simulationTime
      = fin (944473296573929 / 512) := by
    show specAverageThroughput (2 ^ 61) (fin 10) = _
    unfold specAverageThroughput
    rw [show 2 ^ 61 * 8 = 2 ^ 64 by norm_num, ofNat_two_pow_64, mul_million_ten,
      div_fin_fin (by norm_num) (by norm_num)]
    exact round_spec_average
  refine ⟨h1, h2, ?_⟩
  rw [h1, h2]
  norm_num

/-- C6, counterexample: with `simulationTime = 0` nothing guards the division by
`1e6*0`; a UDP total of 1472 bytes is reported as `+inf` and a TCP total of 0
bytes as NaN. -/
theorem zero_simulationTime_reports_inf_nan :
    (main { defaultConfig with simulationTime := fin 0 }
        (sampleRun steadyFlow 1472 0)).udpAverageThroughput = inf false ∧
    (main { defaultConfig with simulationTime := fin 0 }
        (sampleRun steadyFlow 1472 0)).tcpAverageThroughput = nan := by
  constructor
  · show averageThroughput 1472 (fin 0) = inf false
    rw [averageThroughput_zero_time 1472 (T := fin 0) rfl]
    norm_num [Double.sign]
  · show averageThroughput 0 (fin 0) = nan
    rw [averageThroughput_zero_time 0 (T := fin 0) rfl]
    norm_num

/-- C6, amended: when the configured `simulationTime` is a zero, each aggregate
average is the unguarded quotient by `1e6*0`: NaN when the wrapped bit count
`total*8 mod 2^64` is `0`, and otherwise an infinity with the sign of the
zero. -/
theorem zero_simulationTime_averages (cfg : Config) (sim : SimResult)
    (hT : Double.isZero cfg.simulationTime = true) :
    (main cfg sim).udpAverageThroughput =
      (if (sim.udpTotalRx * 8) % 2 ^ 64 = 0 then nan
        else inf (Double.sign cfg.simulationTime)) ∧
    (main cfg sim).tcpAverageThroughput =
      (if (sim.tcpTotalRx * 8) % 2 ^ 64 = 0 then nan
        else inf (Double.sign cfg.simulationTime)) :=
  ⟨averageThroughput_zero_time _ hT, averageThroughput_zero_time _ hT⟩

/-- C6, witness of the amended statement at `simulationTime = 0`, a UDP total of
1472 bytes and a TCP total of 0 bytes. -/
theorem zero_simulationTime_averages_witness :
    Double.isZero ({ defaultConfig with simulationTime := fin 0 } : Config).simulationTime = true ∧
    ((main { defaultConfig with simulationTime := fin 0 }
        (sampleRun steadyFlow 1472 0)).udpAverageThroughput =
      (if (1472 * 8) % 2 ^ 64 = 0 then nan else inf (Double.sign (fin 0))) ∧
    (main { defaultConfig with simulationTime := fin 0 }
        (sampleRun steadyFlow 1472 0)).tcpAverageThroughput =
      (if (0 * 8) % 2 ^ 64 = 0 then nan else inf (Double.sign (fin 0)))) :=
  ⟨rfl, zero_simulationTime_averages { defaultConfig with simulationTime := fin 0 }
    (sampleRun steadyFlow 1472 0) rfl⟩

/-! ## Per-flow rates (C2, C3, C5) -/

/-- C2, amended: for byte counters under `2^61` the two rates of a
reported flow are `txBytes*8/duration/1e6` and `rxBytes*8/duration/1e6`. -/
theorem flow_rates_below_wrap (classifier : FlowId → FiveTuple) (i : FlowId × FlowStats)
    (htx : i.2.txBytes < 2 ^ 61) (hrx : i.2.rxBytes < 2 ^ 61) :
    (flowReport classifier i).txOffered = specRateMbps i.2.txBytes (ftime i.2) ∧
    (flowReport classifier i).throughput = specRateMbps i.2.rxBytes (ftime i.2) :=
  ⟨rateMbps_eq_spec_of_lt htx _, rateMbps_eq_spec_of_lt hrx _⟩

/-- C2, witness of the amended statement: flow 1 with 1472 bytes sent
and received. -/
theorem flow_rates_below_wrap_witness :
    steadyFlow.txBytes < 2 ^ 61 ∧ steadyFlow.rxBytes < 2 ^ 61 ∧
    (flowReport (fun _ => sampleTuple) (1, steadyFlow)).txOffered
      = specRateMbps 1472 (ftime steadyFlow) ∧
    (flowReport (fun _ => sampleTuple) (1, steadyFlow)).throughput
      = specRateMbps 1472 (ftime steadyFlow) :=
  have h : steadyFlow.txBytes < 2 ^ 61 := by
    show 1472 < 2 ^ 61
    norm_num
  have h2 : steadyFlow.rxBytes < 2 ^ 61 := by
    show 1472 < 2 ^ 61
    norm_num
  ⟨h, h2, flow_rates_below_wrap (fun _ => sampleTuple) (1, steadyFlow) h h2⟩

/-- C2, counterexample to the claim for every 64-bit counter value: flow 1
with a duration of one second and
`2^61` bytes sent and received.  The `uint64_t` products `txBytes * 8` and
`rxBytes * 8` wrap to `0`, so both rates are reported as `0`, while
`rxBytes*8/duration/1e6` is `2^64/10^6` rounded, about `1.8e13`. -/
theorem flow_rates_wrap :
    (main defaultConfig (sampleRun wrappedFlow 0 0)).flows
      = [⟨1, 167772163, 167772161, 1, 2 ^ 61, fin 0, 1, 2 ^ 61, fin 0⟩] ∧
    Double.lt (fin 0) (ftime wrappedFlow) = true ∧
    specRateMbps wrappedFlow.rxBytes (ftime wrappedFlow) = fin (4722366482869645 / 256) ∧
    specRateMbps wrappedFlow.txBytes (ftime wrappedFlow) = fin (4722366482869645 / 256) ∧
    (fin 0 : Double) ≠ fin (4722366482869645 / 256) := by
  have hf : ftime wrappedFlow = fin 1 := sub_two_one
  refine ⟨?_, ?_, ?_, ?_, by norm_num⟩
  · have hr : rateMbps wrappedFlow.rxBytes (ftime wrappedFlow) = fin 0 := by
      rw [hf]
      exact rateMbps_wrap
    have ht : rateMbps wrappedFlow.txBytes (ftime wrappedFlow) = fin 0 := by
      rw [hf]
      exact rateMbps_wrap
    show reportLoop _ [(1, wrappedFlow)] = _
    simp only [reportLoop, flowReport, hr, ht]
    simp [wrappedFlow, sampleRun, sampleTuple]
  · rw [hf]
    simp [Double.lt]
  · rw [hf]
    exact specRateMbps_wrap
  · rw [hf]
    exact specRateMbps_wrap

/-- C3, amended: for `rxBytes <= txBytes < 2^61` and a positive duration
the reported throughput is at most the reported offered rate. -/
theorem throughput_le_offered_below_wrap (classifier : FlowId → FiveTuple)
    (i : FlowId × FlowStats) (h : i.2.rxBytes ≤ i.2.txBytes) (htx : i.2.txBytes < 2 ^ 61)
    (hd : Double.lt (fin 0) (ftime i.2) = true) :
    Double.le (flowReport classifier i).throughput (flowReport classifier i).txOffered = true :=
  rateMbps_mono_of_lt h htx hd

/-- C3, witness of the amended statement: flow 1 with 1472 bytes sent
and received within one second. -/
theorem throughput_le_offered_below_wrap_witness :
    steadyFlow.rxBytes ≤ steadyFlow.txBytes ∧ steadyFlow.txBytes < 2 ^ 61 ∧
    Double.lt (fin 0) (ftime steadyFlow) = true ∧
    Double.le (flowReport (fun _ => sampleTuple) (1, steadyFlow)).throughput
      (flowReport (fun _ => sampleTuple) (1, steadyFlow)).txOffered = true :=
  have h1 : steadyFlow.rxBytes ≤ steadyFlow.txBytes := le_refl _
  have h2 : steadyFlow.txBytes < 2 ^ 61 := by
    show 1472 < 2 ^ 61
    norm_num
  have h3 : Double.lt (fin 0) (ftime steadyFlow) = true := by
    rw [show ftime steadyFlow = fin 1 from sub_two_one]
    simp [Double.lt]
  ⟨h1, h2, h3, throughput_le_offered_below_wrap (fun _ => sampleTuple) (1, steadyFlow) h1 h2 h3⟩

/-- C3, counterexample to the claim for every 64-bit counter value: flow 1
with a duration of one second,
`rxBytes = 1` and `txBytes = 2^61`.  The product `txBytes * 8` wraps to `0`, so
the offered rate is printed as `0` and the throughput, `8e-6`, exceeds it. -/
theorem throughput_exceeds_offered_on_wrap :
    (main defaultConfig (sampleRun lossyWrappedFlow 0 0)).flows
      = [⟨1, 167772163, 167772161, 1, 2 ^ 61, fin 0, 1, 1,
          fin (4722366482869645 / 590295810358705651712)⟩] ∧
    lossyWrappedFlow.rxBytes ≤ lossyWrappedFlow.txBytes ∧
    lossyWrappedFlow.txBytes < 2 ^ 64 ∧
    Double.lt (fin 0) (ftime lossyWrappedFlow) = true ∧
    Double.le (fin (4722366482869645 / 590295810358705651712)) (fin 0) = false := by
  have hf : ftime lossyWrappedFlow = fin 1 := sub_two_one
  refine ⟨?_, ?_, ?_, ?_, ?_⟩
  · have hr : rateMbps lossyWrappedFlow.rxBytes (ftime lossyWrappedFlow)
        = fin (4722366482869645 / 590295810358705651712) := by
      rw [hf]
      exact rateMbps_one
    have ht : rateMbps lossyWrappedFlow.txBytes (ftime lossyWrappedFlow) = fin 0 := by
      rw [hf]
      exact rateMbps_wrap
    show reportLoop _ [(1, lossyWrappedFlow)] = _
    simp only [reportLoop, flowReport, hr, ht]
    simp [lossyWrappedFlow, sampleRun, sampleTuple]
  · simp [lossyWrappedFlow]
  · simp [lossyWrappedFlow]
  · rw [hf]
    simp [Double.lt]
  · simp [Double.le]

/-- C5, counterexample: flow 1 with equal first-transmit and last-receive times,
1472 bytes sent and none received, is reported with an offered rate of `+inf`
and a throughput of NaN. -/
theorem zero_duration_reports_inf_nan :
    Double.isZero (ftime instantFlow) = true ∧
    (main defaultConfig (sampleRun instantFlow 0 0)).flows
      = [⟨1, 167772163, 167772161, 1, 1472, inf false, 0, 0, nan⟩] := by
  have hf : ftime instantFlow = fin 0 := sub_one_one
  have h1 := rateMbps_zero_duration 1472 (t := fin 0) rfl
  have h2 := rateMbps_zero_duration 0 (t := fin 0) rfl
  norm_num [Double.sign] at h1 h2
  have ht : rateMbps instantFlow.txBytes (ftime instantFlow) = inf false := by
    rw [hf]
    exact h1
  have hr : rateMbps instantFlow.rxBytes (ftime instantFlow) = nan := by
    rw [hf]
    exact h2
  constructor
  · rw [hf]
    rfl
  · show reportLoop _ [(1, instantFlow)] = _
    simp only [reportLoop, flowReport, hr, ht]
    simp [instantFlow, sampleRun, sampleTuple]

/-- C5, amended: a flow with `FlowId >= 1` whose observed duration is a zero is
reported, and each of its two rates is the unguarded quotient by that zero: NaN
when the wrapped bit count `bytes*8 mod 2^64` is `0`, and otherwise an infinity
with the sign of the zero. -/
theorem zero_duration_rates (cfg : Config) (sim : SimResult) (i : FlowId × FlowStats)
    (hi : i ∈ sim.stats.entries) (h1 : i.1 ≥ 1) (hz : Double.isZero (ftime i.2) = true) :
    flowReport sim.classifier i ∈ (main cfg sim).flows ∧
    (flowReport sim.classifier i).txOffered =
      (if (i.2.txBytes * 8) % 2 ^ 64 = 0 then nan else inf (Double.sign (ftime i.2))) ∧
    (flowReport sim.classifier i).throughput =
      (if (i.2.rxBytes * 8) % 2 ^ 64 = 0 then nan else inf (Double.sign (ftime i.2))) :=
  ⟨mem_reportLoop sim.classifier hi h1, rateMbps_zero_duration _ hz, rateMbps_zero_duration _ hz⟩

/-- C5, witness of the amended statement at flow 1 with equal time stamps. -/
theorem zero_duration_rates_witness :
    ((1, instantFlow) : FlowId × FlowStats) ∈ (sampleRun instantFlow 0 0).stats.entries ∧
    (1 : FlowId) ≥ 1 ∧
    Double.isZero (ftime instantFlow) = true ∧
    flowReport (sampleRun instantFlow 0 0).classifier (1, instantFlow)
      ∈ (main defaultConfig (sampleRun instantFlow 0 0)).flows ∧
    (flowReport (sampleRun instantFlow 0 0).classifier (1, instantFlow)).txOffered =
      (if (instantFlow.txBytes * 8) % 2 ^ 64 = 0 then nan
        else inf (Double.sign (ftime instantFlow))) ∧
    (flowReport (sampleRun instantFlow 0 0).classifier (1, instantFlow)).throughput =
      (if (instantFlow.rxBytes * 8) % 2 ^ 64 = 0 then nan
        else inf (Double.sign (ftime instantFlow))) :=
  have hz : Double.isZero (ftime instantFlow) = true := by
    rw [show ftime instantFlow = fin 0 from sub_one_one]
    rfl
  ⟨List.mem_singleton.mpr rfl, le_refl _, hz,
    zero_duration_rates defaultConfig (sampleRun instantFlow 0 0) (1, instantFlow)
      (List.mem_singleton.mpr rfl) (le_refl _) hz⟩

/-! ## Which flows are reported, and in which order (C4, C9) -/

/-- C4: a flow identifier occurs in the per-flow report exactly once when it is
at least 1 and a key of the flow-statistics map, and not at all otherwise. -/
theorem flow_reported_iff_id_pos (cfg : Config) (sim : SimResult) (k : FlowId) :
    ((main cfg sim).flows.map FlowReport.flowId).count k =
      if 1 ≤ k ∧ k ∈ sim.stats.entries.map Prod.fst then 1 else 0 := by
  show ((reportLoop sim.classifier sim.stats.entries).map FlowReport.flowId).count k = _
  rw [reportLoop_flowIds]
  have hnd : (sim.stats.entries.map Prod.fst).Nodup :=
    (keys_pairwise sim.stats).imp (fun h => Nat.ne_of_lt h)
  have hnd2 := hnd.filter (fun k => decide (1 ≤ k))
  rw [List.count_eq_of_nodup hnd2]
  simp only [List.mem_filter, decide_eq_true_eq]
  by_cases h1 : 1 ≤ k <;> by_cases h2 : k ∈ sim.stats.entries.map Prod.fst <;> simp [h1, h2]

/-- C9: the per-flow reports are written in strictly ascending `FlowId` order. -/
theorem flow_reports_ascending (cfg : Config) (sim : SimResult) :
    ((main cfg sim).flows.map FlowReport.flowId).Pairwise (· < ·) := by
  show ((reportLoop sim.classifier sim.stats.entries).map FlowReport.flowId).Pairwise (· < ·)
  rw [reportLoop_flowIds]
  exact (keys_pairwise sim.stats).filter _

/-! ## The RTS/CTS flag (C10) -/

/-- C10: `enableRtsCts` selects the threshold (10 when set, 2200 when not) and
nothing else: for the same statistics, sink totals and `simulationTime` the
per-flow reports and the two aggregate averages are the same with the flag set
and with it cleared, and so are the node placement and the stop time. -/
theorem enableRtsCts_only_sets_threshold (cfg : Config) (sim : SimResult) :
    (main { cfg with enableRtsCts := true } sim).ctsThr = 10 ∧
    (main { cfg with enableRtsCts := false } sim).ctsThr = 2200 ∧
    (main { cfg with enableRtsCts := true } sim).flows
      = (main { cfg with enableRtsCts := false } sim).flows ∧
    (main { cfg with enableRtsCts := true } sim).udpAverageThroughput
      = (main { cfg with enableRtsCts := false } sim).udpAverageThroughput ∧
    (main { cfg with enableRtsCts := true } sim).tcpAverageThroughput
      = (main { cfg with enableRtsCts := false } sim).tcpAverageThroughput ∧
    (main { cfg with enableRtsCts := true } sim).placement
      = (main { cfg with enableRtsCts := false } sim).placement ∧
    (main { cfg with enableRtsCts := true } sim).stopTime
      = (main { cfg with enableRtsCts := false } sim).stopTime :=
  ⟨rfl, rfl, rfl, rfl, rfl, rfl, rfl⟩

/-! ## Node positions (C7, C8) -/

/-- C7, counterexample: at `dist = 0` the positions given to the four nodes are
not pairwise distinct (each station sits on its access point). -/
theorem positions_collide_at_dist_zero : ¬ ((placement 0).map Prod.snd).Nodup := by
  rw [placement_eq_fin (by norm_num)]
  simp

/-- C7, amended: for a 32-bit unsigned `dist` the positions given to the four
nodes are pairwise distinct exactly when `dist` is neither 0 nor 10000. -/
theorem positions_nodup_iff (dist : ℕ) (h : dist < 2 ^ 32) :
    ((placement dist).map Prod.snd).Nodup ↔ dist ≠ 0 ∧ dist ≠ 10000 := by
  rw [placement_eq_fin h]
  simp only [List.map, List.nodup_cons, List.mem_cons, List.mem_singleton, List.not_mem_nil,
    Vector.mk.injEq, fin.injEq, List.nodup_nil]
  constructor
  · rintro ⟨h1, h2, h3, -⟩
    constructor
    · intro h0
      subst h0
      simp at h1
    · intro h0
      subst h0
      simp at h2
  · rintro ⟨h1, h2⟩
    have e1 : (dist : ℚ) ≠ 0 := by exact_mod_cast h1
    have e2 : (dist : ℚ) ≠ 10000 := by exact_mod_cast h2
    have e3 : (0 : ℚ) ≤ dist := by positivity
    refine ⟨?_, ?_, ?_, by simp⟩
    · simp only [and_true, or_false, not_or]
      refine ⟨by norm_num, fun h => e1 h.symm, fun h => by linarith⟩
    · simp only [and_true, or_false, not_or]
      refine ⟨fun h => e2 h.symm, fun h => e1 (by linarith)⟩
    · simp

/-- C7, witness of the amended statement at the default `dist = 50`. -/
theorem positions_nodup_iff_witness :
    50 < 2 ^ 32 ∧ (((placement 50).map Prod.snd).Nodup ↔ 50 ≠ 0 ∧ 50 ≠ 10000) :=
  ⟨by norm_num, positions_nodup_iff 50 (by norm_num)⟩

/-- C8, counterexample: at the default `dist = 50` the first access point (node
0) is placed at `(50,0,0)`, not at `(0,0,0)`, and the first station (node 1) at
`(0,0,0)`, not at `(50,0,0)`. -/
theorem access_point_not_at_origin :
    apNodes = [0, 2] ∧ stationNodes = [1, 3] ∧
    nodePosition 50 0 = some ⟨fin 50, fin 0, fin 0⟩ ∧
    nodePosition 50 0 ≠ some ⟨fin 0, fin 0, fin 0⟩ ∧
    nodePosition 50 1 = some ⟨fin 0, fin 0, fin 0⟩ ∧
    nodePosition 50 1 ≠ some ⟨fin 50, fin 0, fin 0⟩ := by
  have hp := placement_eq_fin (show 50 < 2 ^ 32 by norm_num)
  have h0 : nodePosition 50 0 = some ⟨fin 50, fin 0, fin 0⟩ := by
    unfold nodePosition
    rw [hp]
    rfl
  have h1 : nodePosition 50 1 = some ⟨fin 0, fin 0, fin 0⟩ := by
    unfold nodePosition
    rw [hp]
    rfl
  refine ⟨by decide, by decide, h0, ?_, h1, ?_⟩
  · rw [h0]
    simp
  · rw [h1]
    simp

/-- C8, amended: for a 32-bit unsigned `d` there are two access points (nodes
0 and 2) and two stations (nodes 1 and 3); positions are handed out in list
order, first to the stations and then to the access points, so the stations
are at `(0,0,0)` and `(10000,0,0)` and the access points at `(d,0,0)` and
`(10000+d,0,0)`; access point `i` and station `i` differ by `d` in `x` and
agree in `y` and `z`. -/
theorem placement_layout (d : ℕ) (h : d < 2 ^ 32) :
    apNodes = [0, 2] ∧ stationNodes = [1, 3] ∧
    (placement d).map Prod.fst = stationNodes ++ apNodes ∧
    (placement d).map Prod.snd = (positionAlloc d).positions ∧
    nodePosition d 1 = some ⟨fin 0, fin 0, fin 0⟩ ∧
    nodePosition d 3 = some ⟨fin 10000, fin 0, fin 0⟩ ∧
    nodePosition d 0 = some ⟨fin d, fin 0, fin 0⟩ ∧
    nodePosition d 2 = some ⟨fin (10000 + d), fin 0, fin 0⟩ ∧
    Double.sub (fin d) (fin 0) = fin d ∧
    Double.sub (fin (10000 + d)) (fin 10000) = fin d := by
  have hs0 : Double.sub (fin d) (fin 0) = fin d := by
    simp only [Double.sub, Double.neg, if_true, Double.add]
    exact round_natCast (by omega)
  have hs1 : Double.sub (fin (10000 + d)) (fin 10000) = fin d := by
    have hne : ¬ ((10000 : ℚ) = 0) := by norm_num
    simp only [Double.sub, Double.neg, if_neg hne, Double.add]
    have : (10000 + (d : ℚ) + -10000) = d := by ring
    rw [this]
    exact round_natCast (by omega)
  refine ⟨by decide, by decide, rfl, rfl, ?_, ?_, ?_, ?_, hs0, hs1⟩ <;>
    (unfold nodePosition; rw [placement_eq_fin h]; rfl)

/-- C8, witness of the amended statement at the default `d = 50`. -/
theorem placement_layout_witness :
    50 < 2 ^ 32 ∧
    (apNodes = [0, 2] ∧ stationNodes = [1, 3] ∧
    (placement 50).map Prod.fst = stationNodes ++ apNodes ∧
    (placement 50).map Prod.snd = (positionAlloc 50).positions ∧
    nodePosition 50 1 = some ⟨fin 0, fin 0, fin 0⟩ ∧
    nodePosition 50 3 = some ⟨fin 10000, fin 0, fin 0⟩ ∧
    nodePosition 50 0 = some ⟨fin (50 : ℕ), fin 0, fin 0⟩ ∧
    nodePosition 50 2 = some ⟨fin (10000 + (50 : ℕ)), fin 0, fin 0⟩ ∧
    Double.sub (fin (50 : ℕ)) (fin 0) = fin (50 : ℕ) ∧
    Double.sub (fin (10000 + (50 : ℕ))) (fin 10000) = fin (50 : ℕ)) :=
  ⟨by norm_num, placement_layout 50 (by norm_num)⟩

end Lab4
